import Mathlib

/-!
Verification of the minesweeper library core (src/lib/src/board.rs and
src/lib/src/solver.rs) against its specification.

The Rust code is shallowly embedded: grids become `List (List CellState)`,
the `HashSet<Position>` of mines becomes a `Finset Position`, `usize`/`isize`
arithmetic is modelled on `Nat`/`Int` with explicit wrapping (`% 2^64`) at the
`as usize` cast, indexing panics become `Option` failures (`none`), and the
ambient random generator `rand::random::<f64>()` becomes an injected draw
function `Nat → Nat → ℚ` (one independent draw per visited cell), with the
probability field of `BoardOptions` and of `PositionBombProbability` carried
in `ℚ`.
-/

namespace Minesweeper

/-- `CellState` from board.rs.  `Danger` carries the `u8` adjacent-mine count
as a `Nat` (all writes are reduced `% 256` at the `as u8` cast site). -/
inductive CellState where
  | Empty
  | Unknown
  | Bomb
  | Danger (n : Nat)
  deriving DecidableEq

/-- `Position` from board.rs, field order as in the source. -/
structure Position where
  col : Nat
  row : Nat
  deriving DecidableEq

/-- `Position::new(row, col)`. -/
def Position.new (row col : Nat) : Position := { row := row, col := col }

/-- `Board` from board.rs: the grid of cell states plus the mine set. -/
structure Board where
  states : List (List CellState)
  bomb_positions : Finset Position
  deriving DecidableEq

/-- `BoardOptions` from board.rs; the `f64` probability is carried as `ℚ`. -/
structure BoardOptions where
  num_rows : Nat
  num_cols : Nat
  bomb_probability : ℚ

/-- `PositionBombProbability` from solver.rs. -/
structure PositionBombProbability where
  position : Position
  probability : ℚ
  deriving DecidableEq

/-- `PositionBombProbability::new`. -/
def PositionBombProbability.new (position : Position) (probability : ℚ) :
    PositionBombProbability :=
  { position := position, probability := probability }

/-- The `DIRECTIONS` constant from board.rs, in source order
(NW, N, NE, E, SE, S, SW, W with rows growing downward). -/
def DIRECTIONS : List (Int × Int) :=
  [(-1, -1), (-1, 0), (-1, 1), (0, 1), (1, 1), (1, 0), (1, -1), (0, -1)]

/-- `self.states.len()` — the row count. -/
def Board.numRows (b : Board) : Nat := b.states.length

/-- `self.states[0].len()` as used (short-circuited) in `position_on_board`:
when `states` is empty the `&&` short-circuit means `states[0]` is never
evaluated there, so reading the head with default `[]` is faithful. -/
def Board.numCols (b : Board) : Nat := (b.states.headD []).length

/-- `Board::position_on_board`. -/
def Board.position_on_board (b : Board) (pos : Position) : Prop :=
  pos.row < b.numRows ∧ pos.col < b.numCols

instance (b : Board) (pos : Position) : Decidable (b.position_on_board pos) :=
  inferInstanceAs (Decidable (_ ∧ _))

/-- The `as usize` cast applied to an `isize` value: wrap modulo `2^64`. -/
def usizeCast (z : Int) : Nat := (z % (2 ^ 64 : Int)).toNat

/-- `Position::surrounding` from board.rs, including its quirks: the guard
rejects an offset only when BOTH coordinates are negative (`&&` in the
source), and a single negative coordinate instead wraps at the `as usize`
cast and is then rejected by `position_on_board`. -/
def Position.surrounding (pos : Position) (board : Board) : List Position :=
  DIRECTIONS.filterMap (fun d =>
    let new_row : Int := d.1 + (pos.row : Int)
    let new_col : Int := d.2 + (pos.col : Int)
    if new_row < 0 ∧ new_col < 0 then
      none
    else
      let new_pos := Position.new (usizeCast new_row) (usizeCast new_col)
      if board.position_on_board new_pos then some new_pos else none)

/-- `Board::generate_random_bomb_positions`, with the ambient random source
injected as `draws` (one independent uniform draw in `[0,1)` per visited
cell).  Note the source iterates the ROW index over `0..options.num_cols`. -/
def Board.generate_random_bomb_positions (options : BoardOptions)
    (draws : Nat → Nat → ℚ) : Finset Position :=
  ((List.range options.num_cols).flatMap (fun row =>
    (List.range options.num_cols).filterMap (fun col =>
      if draws row col < options.bomb_probability then some (Position.new row col)
      else none))).toFinset

/-- `Board::new`. -/
def Board.new (options : BoardOptions) (draws : Nat → Nat → ℚ) : Board :=
  { states := List.replicate options.num_rows
      (List.replicate options.num_cols CellState.Unknown),
    bomb_positions :=
      if options.bomb_probability = 0 then ∅
      else Board.generate_random_bomb_positions options draws }

/-- Reading `self.states[pos.row][pos.col]`; `none` models the
index-out-of-bounds panic. -/
def getState (b : Board) (p : Position) : Option CellState :=
  match b.states[p.row]? with
  | none => none
  | some rowVec => rowVec[p.col]?

/-- Writing `self.states[pos.row][pos.col] = s`; `none` models the
index-out-of-bounds panic. -/
def setState (b : Board) (p : Position) (s : CellState) : Option Board :=
  match b.states[p.row]? with
  | none => none
  | some rowVec =>
    if p.col < rowVec.length then
      some { b with states := b.states.set p.row (rowVec.set p.col s) }
    else none

/-- The `for_each` cascade loop inside `Board::reveal_cell`: walk the
precomputed neighbor list, re-reading the CURRENT board state of each
neighbor and recursively revealing it when it is still `Unknown`.  The
recursive reveal is passed in as a function so that the fuel recursion
below stays structural. -/
def cascadeWith (reveal : Board → Position → Option (Board × CellState)) :
    List Position → Board → Option Board
  | [], b => some b
  | n :: rest, b =>
    match getState b n with
    | none => none
    | some s =>
      if s = CellState.Unknown then
        match reveal b n with
        | none => none
        | some (b', _) => cascadeWith reveal rest b'
      else cascadeWith reveal rest b

/-- `Board::reveal_cell`, fuel-indexed: `fuel` bounds the recursion depth and
running out of fuel yields `none`.  The lemmas below show any fuel above the
number of `Unknown` cells is enough, which is how the terminating Rust
recursion is recovered.  Mirrors the source order: neighbors are computed
first, then the mine check, then the adjacent-mine count, write, cascade. -/
def Board.reveal_cell_fuel : Nat → Board → Position → Option (Board × CellState)
  | 0, _, _ => none
  | fuel + 1, b, pos =>
    let surr := pos.surrounding b
    if pos ∈ b.bomb_positions then
      match setState b pos CellState.Bomb with
      | none => none
      | some b' => some (b', CellState.Bomb)
    else
      let surrounding_bomb_count :=
        (surr.filter (fun n => decide (n ∈ b.bomb_positions))).length
      let state := if surrounding_bomb_count = 0 then CellState.Empty
                   else CellState.Danger (surrounding_bomb_count % 256)
      match setState b pos state with
      | none => none
      | some b' =>
        if state = CellState.Empty then
          match cascadeWith (Board.reveal_cell_fuel fuel) surr b' with
          | none => none
          | some b'' => some (b'', state)
        else some (b', state)

/-- Number of `Unknown` cells on the board (the fuel measure). -/
def countUnknown (b : Board) : Nat :=
  (b.states.map (fun r => r.countP (fun s => decide (s = CellState.Unknown)))).sum

/-- `Board::reveal_cell` proper: run the fuel-indexed version with enough
fuel (one more than the number of `Unknown` cells). -/
def Board.reveal_cell (b : Board) (pos : Position) : Option (Board × CellState) :=
  Board.reveal_cell_fuel (countUnknown b + 1) b pos

/-- `rank_positions` from solver.rs: `none` models both panics (the
`states[0]` index on an empty grid and the explicit
`panic!("unimplemented")` on a partially revealed board). -/
def rank_positions (board : Board) : Option (List PositionBombProbability) :=
  if board.states.all (fun row => row.all (fun state => decide (state = CellState.Unknown))) then
    match board.states[0]? with
    | none => none
    | some row0 =>
      some (board.states.enum.flatMap (fun rowPair =>
        rowPair.2.enum.map (fun colPair =>
          PositionBombProbability.new (Position.new rowPair.1 colPair.1)
            (1 / ((board.states.length : ℚ) * (row0.length : ℚ))))))
  else
    none

/-- The glyph written for one cell by the `Display` impl (the string inside
`write!(f, "{} ", …)`). -/
def cellGlyphString : CellState → String
  | .Empty => " "
  | .Danger x => toString x
  | .Bomb => "X"
  | .Unknown => "-"

/-- The `Display` impl for `Board`: per cell the glyph plus a space, per row
a trailing newline, accumulated left to right as the `Formatter` does. -/
def render (b : Board) : String :=
  b.states.foldl (fun acc row =>
    (row.foldl (fun acc2 s => acc2 ++ cellGlyphString s ++ " ") acc) ++ "\n") ""

/-- The spec invariant that the grid is rectangular: every row has the same
column count. -/
def rect (b : Board) : Prop := ∀ r ∈ b.states, r.length = b.numCols

instance (b : Board) : Decidable (rect b) := by
  unfold rect
  exact inferInstanceAs (Decidable (∀ r ∈ b.states, _))

/-- Every cell of the board is `Unknown`. -/
def AllUnknown (b : Board) : Prop :=
  ∀ r ∈ b.states, ∀ s ∈ r, s = CellState.Unknown

instance (b : Board) : Decidable (AllUnknown b) := by
  unfold AllUnknown
  exact inferInstanceAs (Decidable (∀ r ∈ b.states, _))

/-- Number of mines among the in-bounds neighbors of `p` — literally the
`surrounding_bomb_count` expression of `Board::reveal_cell`. -/
def mineCount (b : Board) (p : Position) : Nat :=
  ((p.surrounding b).filter (fun n => decide (n ∈ b.bomb_positions))).length

section BasicLemmas

/-- `setState` fails exactly on a (row or column) index out of range. -/
theorem setState_eq_none_of_oob (b : Board) (p : Position)
    (hrect : rect b) (hp : ¬ b.position_on_board p) (s : CellState) :
    setState b p s = none := by
  unfold setState
  rcases Nat.lt_or_ge p.row b.numRows with hrow | hrow
  · have hcol : b.numCols ≤ p.col := by
      rcases not_and_or.mp hp with h | h
      · exact absurd hrow h
      · exact Nat.le_of_not_lt h
    obtain ⟨rowVec, hx⟩ : ∃ r, b.states[p.row]? = some r :=
      ⟨_, List.getElem?_eq_getElem hrow⟩
    have hlen : rowVec.length = b.numCols :=
      hrect _ (List.getElem?_mem hx)
    rw [hx]
    dsimp only
    rw [if_neg (by omega : ¬ p.col < rowVec.length)]
  · unfold Board.numRows at hrow
    rw [List.getElem?_eq_none hrow]

end BasicLemmas

/-! ## Claim C10 -/

/-- Claim C10: for every (rectangular) board and every out-of-bounds position
(row at least the row count, or column at least the column count),
`reveal_cell` does not return a `CellState`: it fails with an out-of-bounds
grid index (modelled as `none`); the silent filtering of out-of-bounds
positions applies only to neighbor enumeration, not to `reveal_cell`'s own
argument. -/
theorem reveal_cell_oob_fails (b : Board) (p : Position)
    (hrect : rect b) (hp : ¬ b.position_on_board p) :
    b.reveal_cell p = none := by
  unfold Board.reveal_cell
  rw [Board.reveal_cell_fuel]
  simp only [setState_eq_none_of_oob b p hrect hp]
  split <;> rfl

/-- Witness for C10: a concrete 2-by-2 all-`Unknown` board and the
out-of-bounds position (2,0). -/
theorem reveal_cell_oob_fails_witness :
    (Board.mk [[CellState.Unknown, CellState.Unknown],
               [CellState.Unknown, CellState.Unknown]] ∅).reveal_cell
      (Position.new 2 0) = none :=
  reveal_cell_oob_fails _ _ (by decide) (by decide)

/-! ## Claim C2 -/

/-- The 5-by-5 all-`Unknown` board with a single mine at (2,2) — the
scenario of the spec's cascade-correctness property. -/
def board5x5 : Board :=
  { states := List.replicate 5 (List.replicate 5 CellState.Unknown),
    bomb_positions := {Position.new 2 2} }

/-- The fully cascaded board: every cell revealed except the mine at (2,2),
`Danger 1` on the 8 cells adjacent to the mine, `Empty` everywhere else,
the mine cell still `Unknown`. -/
def board5x5Revealed : Board :=
  { states := [
      [.Empty, .Empty, .Empty, .Empty, .Empty],
      [.Empty, .Danger 1, .Danger 1, .Danger 1, .Empty],
      [.Empty, .Danger 1, .Unknown, .Danger 1, .Empty],
      [.Empty, .Danger 1, .Danger 1, .Danger 1, .Empty],
      [.Empty, .Empty, .Empty, .Empty, .Empty]],
    bomb_positions := {Position.new 2 2} }

/-- Claim C2: on a 5-by-5 board whose mine set is exactly {(2,2)} and whose
every cell is `Unknown`, `reveal_cell((0,0))` returns `Empty`, and afterwards
every cell of the board is revealed except (2,2): the 8 cells adjacent to
(2,2) are `Danger 1`, the cell (2,2) remains `Unknown`, and every other cell
is `Empty` (the grid of `board5x5Revealed`), with the mine set unchanged. -/
theorem reveal_cascade_5x5 :
    board5x5.reveal_cell (Position.new 0 0) =
      some (board5x5Revealed, CellState.Empty) := by
  decide

/-! ## Claim C5 -/

/-- Claim C5: for every board in which at least one cell is not `Unknown`,
`rank_positions` does not return a value: it is a fatal, unrecoverable
failure (the `panic!("unimplemented")`, modelled as `none`), never a
silently approximated result. -/
theorem rank_positions_partial_board_fails (b : Board)
    (h : ∃ row ∈ b.states, ∃ s ∈ row, s ≠ CellState.Unknown) :
    rank_positions b = none := by
  unfold rank_positions
  rw [if_neg]
  intro hall
  obtain ⟨row, hrow, s, hs, hne⟩ := h
  have h1 := List.all_eq_true.mp hall row hrow
  have h2 := List.all_eq_true.mp h1 s hs
  exact hne (of_decide_eq_true h2)

/-- Witness for C5: a 1-by-2 board whose first cell is already revealed. -/
theorem rank_positions_partial_board_fails_witness :
    rank_positions (Board.mk [[CellState.Empty, CellState.Unknown]] ∅) = none :=
  rank_positions_partial_board_fails _
    ⟨[CellState.Empty, CellState.Unknown], by decide, CellState.Empty, by decide, by decide⟩

/-! ## Claim C1 -/

/-- Claim C1 is refuted by the code: `Board::generate_random_bomb_positions`
iterates its ROW index over `0..options.num_cols` instead of
`0..options.num_rows` (board.rs line 70), so with `num_rows = 1`,
`num_cols = 2`, probability 1 and every uniform draw equal to 0 (a valid
draw in [0,1), and 0 < 1), the constructed board's mine set contains
the position with row 1 and column 0, whose row is outside the 1-row grid: the
mine set is NOT contained in the grid bounds, contradicting the claim.  The
grid itself is the correct 1-by-2 all-`Unknown` grid. -/
theorem new_bomb_out_of_bounds :
    Position.new 1 0 ∈ (Board.new ⟨1, 2, 1⟩ (fun _ _ => 0)).bomb_positions ∧
    (Board.new ⟨1, 2, 1⟩ (fun _ _ => 0)).numRows = 1 ∧
    (Board.new ⟨1, 2, 1⟩ (fun _ _ => 0)).numCols = 2 ∧
    ¬ (Board.new ⟨1, 2, 1⟩ (fun _ _ => 0)).position_on_board (Position.new 1 0) ∧
    AllUnknown (Board.new ⟨1, 2, 1⟩ (fun _ _ => 0)) := by
  decide

/-! ## Claim C4 -/

theorem enumFrom_map_fst {α β : Type _} (l : List α) (m : Nat) (g : Nat → β) :
    (List.enumFrom m l).map (fun p => g p.1) = (List.range' m l.length).map g := by
  induction l generalizing m with
  | nil => rfl
  | cons x xs ih =>
    simp only [List.enumFrom_cons, List.map_cons, List.length_cons, List.range'_succ]
    exact congrArg _ (ih (m + 1))

theorem enumFrom_flatMap_rowmajor (rows : List (List CellState)) (cols : Nat) (q : ℚ)
    (h : ∀ r ∈ rows, r.length = cols) (m : Nat) :
    (List.enumFrom m rows).flatMap (fun rowPair => rowPair.2.enum.map (fun colPair =>
        PositionBombProbability.new (Position.new rowPair.1 colPair.1) q)) =
    (List.range' m rows.length).flatMap (fun r =>
        (List.range cols).map (fun c => PositionBombProbability.new (Position.new r c) q)) := by
  induction rows generalizing m with
  | nil => rfl
  | cons r rs ih =>
    simp only [List.enumFrom_cons, List.flatMap_cons, List.length_cons, List.range'_succ]
    have hinner : r.enum.map (fun colPair =>
        PositionBombProbability.new (Position.new m colPair.1) q) =
        (List.range cols).map (fun c => PositionBombProbability.new (Position.new m c) q) := by
      rw [List.enum_eq_enumFrom, enumFrom_map_fst r 0
        (fun c => PositionBombProbability.new (Position.new m c) q),
        h r (List.mem_cons_self r rs), List.range_eq_range']
    rw [hinner, ih (fun r hr => h r (List.mem_cons_of_mem _ hr)) (m + 1)]

theorem range'_flatMap_length {β : Type _} (g : Nat → Nat → β) (cols : Nat) :
    ∀ (n m : Nat),
    ((List.range' m n).flatMap (fun r => (List.range cols).map (g r))).length = n * cols := by
  intro n
  induction n with
  | zero => intro m; simp
  | succ k ih =>
    intro m
    simp only [List.range'_succ, List.flatMap_cons, List.length_append, List.length_map,
      List.length_range, ih (m + 1)]
    ring

theorem headD_length_of_getElem (b : Board) (row0 : List CellState)
    (h : b.states[0]? = some row0) : row0.length = b.numCols := by
  unfold Board.numCols
  cases hs : b.states with
  | nil => rw [hs] at h; simp at h
  | cons r rs =>
    rw [hs] at h
    simp only [List.getElem?_cons_zero, Option.some.injEq] at h
    rw [← h]
    rfl

/-- Claim C4: for every (rectangular) board with at least one row and one
column whose every cell is `Unknown`, `rank_positions` returns exactly
`numRows * numCols` entries, one for each cell of the grid in row-major
order, each carrying the probability estimate `1 / (numRows * numCols)`. -/
theorem rank_positions_all_unknown (b : Board) (hrect : rect b)
    (hrows : 0 < b.numRows) (hall : AllUnknown b) :
    rank_positions b = some ((List.range b.numRows).flatMap (fun r =>
      (List.range b.numCols).map (fun c => PositionBombProbability.new (Position.new r c)
        (1 / ((b.numRows : ℚ) * (b.numCols : ℚ)))))) ∧
    ((List.range b.numRows).flatMap (fun r =>
      (List.range b.numCols).map (fun c => PositionBombProbability.new (Position.new r c)
        (1 / ((b.numRows : ℚ) * (b.numCols : ℚ)))))).length = b.numRows * b.numCols := by
  constructor
  · unfold rank_positions
    rw [if_pos]
    · obtain ⟨row0, h0⟩ : ∃ r, b.states[0]? = some r :=
        ⟨_, List.getElem?_eq_getElem hrows⟩
      have hlen0 : row0.length = b.numCols :=
        headD_length_of_getElem b _ h0
      rw [h0]
      dsimp only
      congr 1
      rw [List.enum_eq_enumFrom,
        enumFrom_flatMap_rowmajor b.states b.numCols _ hrect 0]
      simp only [hlen0]
      rw [List.range_eq_range' b.numRows]
      rfl
    · rw [List.all_eq_true]
      intro row hrow
      rw [List.all_eq_true]
      intro s hs
      exact decide_eq_true (hall row hrow s hs)
  · rw [List.range_eq_range']
    exact range'_flatMap_length
      (fun r c => PositionBombProbability.new (Position.new r c)
        (1 / ((b.numRows : ℚ) * (b.numCols : ℚ)))) b.numCols b.numRows 0

/-- The 3-by-3 all-`Unknown` board of the solver test. -/
def board3x3 : Board :=
  Board.mk (List.replicate 3 (List.replicate 3 CellState.Unknown)) ∅

/-- Witness for C4: the 3-by-3 all-`Unknown` board of the solver test gets
every cell ranked, in row-major order, with probability 1/(3*3). -/
theorem rank_positions_all_unknown_witness :
    rank_positions board3x3 =
      some ((List.range board3x3.numRows).flatMap (fun r =>
        (List.range board3x3.numCols).map (fun c =>
          PositionBombProbability.new (Position.new r c)
            (1 / ((board3x3.numRows : ℚ) * (board3x3.numCols : ℚ)))))) :=
  (rank_positions_all_unknown board3x3 (by decide) (by decide) (by decide)).1

/-! ## Claim C9 -/

/-- The single glyph character the spec assigns to each cell state (the
refinement target for the `Display` impl). -/
def glyphChar : CellState → Char
  | .Empty => ' '
  | .Danger x => Nat.digitChar x
  | .Bomb => 'X'
  | .Unknown => '-'

/-- The rendering as the spec words it: for each row in order, each cell is
one glyph followed by one space, and each row (the last included) is
terminated by a newline. -/
def renderSpec (b : Board) : String :=
  String.mk ((b.states.map (fun row =>
    (row.map (fun s => [glyphChar s, ' '])).flatten ++ ['\n'])).flatten)

/-- A cell state respects the data-model range on `Danger(n)`: `1 ≤ n ≤ 8`. -/
def dangerOK : CellState → Prop
  | .Danger n => 1 ≤ n ∧ n ≤ 8
  | _ => True

instance : DecidablePred dangerOK := fun s =>
  match s with
  | .Empty => isTrue trivial
  | .Unknown => isTrue trivial
  | .Bomb => isTrue trivial
  | .Danger n => inferInstanceAs (Decidable (1 ≤ n ∧ n ≤ 8))

/-- Each board cell holds a `Danger` count between 1 and 8 (the data-model
invariant `1 ≤ n ≤ 8` on `Danger(n)`). -/
def DangerInRange (b : Board) : Prop :=
  ∀ row ∈ b.states, ∀ s ∈ row, dangerOK s

instance (b : Board) : Decidable (DangerInRange b) := by
  unfold DangerInRange
  exact inferInstanceAs (Decidable (∀ row ∈ b.states, _))

theorem cellGlyphString_data (s : CellState) (h : dangerOK s) :
    (cellGlyphString s).data = [glyphChar s] := by
  cases s with
  | Empty => rfl
  | Unknown => rfl
  | Bomb => rfl
  | Danger n =>
    obtain ⟨h1, h8⟩ := h
    interval_cases n <;> rfl

theorem row_foldl_data (row : List CellState) (acc : String)
    (h : ∀ s ∈ row, dangerOK s) :
    (row.foldl (fun acc2 s => acc2 ++ cellGlyphString s ++ " ") acc).data =
      acc.data ++ (row.map (fun s => [glyphChar s, ' '])).flatten := by
  induction row generalizing acc with
  | nil => simp
  | cons s rest ih =>
    simp only [List.foldl_cons, List.map_cons, List.flatten_cons]
    rw [ih _ (fun s hs => h s (List.mem_cons_of_mem _ hs))]
    simp only [String.data_append, cellGlyphString_data s (h s (List.mem_cons_self s rest))]
    simp

theorem rows_foldl_data (rows : List (List CellState)) (acc : String)
    (h : ∀ row ∈ rows, ∀ s ∈ row, dangerOK s) :
    (rows.foldl (fun acc row =>
        (row.foldl (fun acc2 s => acc2 ++ cellGlyphString s ++ " ") acc) ++ "\n") acc).data =
      acc.data ++ (rows.map (fun row =>
        (row.map (fun s => [glyphChar s, ' '])).flatten ++ ['\n'])).flatten := by
  induction rows generalizing acc with
  | nil => simp
  | cons row rest ih =>
    simp only [List.foldl_cons, List.map_cons, List.flatten_cons]
    rw [ih _ (fun r hr => h r (List.mem_cons_of_mem _ hr))]
    simp only [String.data_append,
      row_foldl_data row acc (h row (List.mem_cons_self row rest))]
    simp

/-- Claim C9: for every board (whose `Danger` counts respect the data-model
range 1..8), the textual rendering is exactly, byte for byte: for each row in
order, each cell rendered as one glyph followed by one space — a blank for
`Empty`, the digit for `Danger(n)`, `X` for `Bomb`, `-` for `Unknown` — with
a newline after each row including a trailing newline after the last row
(the `renderSpec` layout). -/
theorem render_eq_renderSpec (b : Board) (h : DangerInRange b) :
    render b = renderSpec b := by
  apply String.ext
  unfold render renderSpec
  rw [rows_foldl_data b.states "" h]
  rfl

/-- Witness for C9: the board of the Rust `test_display` test renders as the
spec says. -/
theorem render_eq_renderSpec_witness :
    render (Board.mk [
      [.Danger 1, .Danger 2, .Danger 2, .Danger 1, .Empty],
      [.Danger 1, .Bomb, .Unknown, .Danger 1, .Empty],
      [.Danger 1, .Danger 2, .Danger 2, .Danger 1, .Empty],
      [.Empty, .Empty, .Empty, .Empty, .Empty],
      [.Empty, .Empty, .Empty, .Empty, .Empty]] ∅) =
    renderSpec (Board.mk [
      [.Danger 1, .Danger 2, .Danger 2, .Danger 1, .Empty],
      [.Danger 1, .Bomb, .Unknown, .Danger 1, .Empty],
      [.Danger 1, .Danger 2, .Danger 2, .Danger 1, .Empty],
      [.Empty, .Empty, .Empty, .Empty, .Empty],
      [.Empty, .Empty, .Empty, .Empty, .Empty]] ∅) :=
  render_eq_renderSpec _ (by decide)

/-! ## Claim C7 -/

/-- Modelled from the spec's words: offset `d` from `pos` is kept iff the
offset position, computed in exact integers, lies within the board's bounds
(both coordinates non-negative, row below the row count, column below the
column count).  This is the refinement target `Position.surrounding` is
compared against. -/
def specNeighborOffset (b : Board) (pos : Position) (d : Int × Int) : Option Position :=
  let nr : Int := d.1 + (pos.row : Int)
  let nc : Int := d.2 + (pos.col : Int)
  if 0 ≤ nr ∧ 0 ≤ nc ∧ nr.toNat < b.numRows ∧ nc.toNat < b.numCols then
    some (Position.new nr.toNat nc.toNat)
  else none

/-- The neighbor list as the spec words it: the 8 compass offsets in the
fixed order NW, N, NE, E, SE, S, SW, W, filtered to those in bounds. -/
def specSurrounding (pos : Position) (b : Board) : List Position :=
  DIRECTIONS.filterMap (specNeighborOffset b pos)

/-- The position sits in a corner of the grid. -/
def isCorner (b : Board) (pos : Position) : Prop :=
  (pos.row = 0 ∨ pos.row = b.numRows - 1) ∧ (pos.col = 0 ∨ pos.col = b.numCols - 1)

instance (b : Board) (pos : Position) : Decidable (isCorner b pos) := by
  unfold isCorner; infer_instance

/-- The position sits on the boundary of the grid. -/
def isEdge (b : Board) (pos : Position) : Prop :=
  pos.row = 0 ∨ pos.row = b.numRows - 1 ∨ pos.col = 0 ∨ pos.col = b.numCols - 1

instance (b : Board) (pos : Position) : Decidable (isEdge b pos) := by
  unfold isEdge; infer_instance

theorem surrounding_eq_spec (b : Board) (pos : Position)
    (hrows : b.numRows < 2 ^ 63) (hcols : b.numCols < 2 ^ 63)
    (hp : b.position_on_board pos) :
    pos.surrounding b = specSurrounding pos b := by
  obtain ⟨hr, hc⟩ := hp
  unfold Position.surrounding specSurrounding
  apply List.filterMap_congr
  intro d hd
  have hdb : (-1 ≤ d.1 ∧ d.1 ≤ 1) ∧ (-1 ≤ d.2 ∧ d.2 ≤ 1) := by
    fin_cases hd <;> norm_num
  obtain ⟨⟨hd1, hd2⟩, hd3, hd4⟩ := hdb
  unfold specNeighborOffset usizeCast Position.new Board.position_on_board
  dsimp only
  split_ifs <;>
    first
      | rfl
      | omega
      | (simp only [Option.some.injEq, Position.mk.injEq]; omega)

theorem specNeighborOffset_inj (b : Board) (pos : Position) :
    ∀ d d' (q : Position), q ∈ specNeighborOffset b pos d →
      q ∈ specNeighborOffset b pos d' → d = d' := by
  intro d d' q h1 h2
  obtain ⟨da, db⟩ := d
  obtain ⟨da', db'⟩ := d'
  unfold specNeighborOffset at h1 h2
  dsimp only at h1 h2
  split_ifs at h1 h2 with hc1 hc2
  · simp only [Option.mem_def, Option.some.injEq] at h1 h2
    rw [← h1] at h2
    simp only [Position.new, Position.mk.injEq] at h2
    simp only [Prod.mk.injEq]
    obtain ⟨e1, e2⟩ := h2
    constructor <;> omega
  · exact (Option.not_mem_none q h2).elim
  · exact (Option.not_mem_none q h1).elim
  · exact (Option.not_mem_none q h1).elim

theorem surrounding_nodup_spec (b : Board) (pos : Position) :
    (specSurrounding pos b).Nodup :=
  List.Nodup.filterMap (specNeighborOffset_inj b pos) (by decide)

theorem self_not_mem_spec (b : Board) (pos : Position) :
    pos ∉ specSurrounding pos b := by
  intro hmem
  unfold specSurrounding at hmem
  rw [List.mem_filterMap] at hmem
  obtain ⟨d, hd, hval⟩ := hmem
  obtain ⟨da, db⟩ := d
  unfold specNeighborOffset at hval
  dsimp only at hval
  split_ifs at hval with hcond
  rw [Option.some.injEq] at hval
  have e1 : (db + (pos.col : Int)).toNat = pos.col := congrArg Position.col hval
  have e2 : (da + (pos.row : Int)).toNat = pos.row := congrArg Position.row hval
  have hz1 : da = 0 := by omega
  have hz2 : db = 0 := by omega
  rw [hz1, hz2] at hd
  revert hd
  decide

theorem length_filterMap_cons' {α β : Type _} (f : α → Option β) (a : α) (l : List α) :
    (List.filterMap f (a :: l)).length =
      (if (f a).isSome = true then 1 else 0) + (List.filterMap f l).length := by
  rw [List.filterMap_cons]
  cases h : f a
  · simp [h]
  · simp [h]
    omega

theorem specNeighborOffset_isSome (b : Board) (pos : Position) (d : Int × Int) :
    (specNeighborOffset b pos d).isSome = true ↔
      (0 ≤ d.1 + (pos.row : Int) ∧ 0 ≤ d.2 + (pos.col : Int) ∧
       (d.1 + (pos.row : Int)).toNat < b.numRows ∧
       (d.2 + (pos.col : Int)).toNat < b.numCols) := by
  unfold specNeighborOffset
  dsimp only
  split_ifs with h <;> simp [h]

set_option maxHeartbeats 1000000 in
theorem specSurrounding_length_corner (b : Board) (pos : Position)
    (hp : b.position_on_board pos) (h2r : 2 ≤ b.numRows) (h2c : 2 ≤ b.numCols)
    (hcorner : isCorner b pos) :
    (specSurrounding pos b).length = 3 := by
  obtain ⟨hr, hc⟩ := hp
  obtain ⟨hrow, hcol⟩ := hcorner
  unfold specSurrounding DIRECTIONS
  simp only [length_filterMap_cons', List.filterMap_nil, List.length_nil,
    specNeighborOffset_isSome]
  split_ifs <;> omega

set_option maxHeartbeats 1000000 in
theorem specSurrounding_length_edge (b : Board) (pos : Position)
    (hp : b.position_on_board pos) (h2r : 2 ≤ b.numRows) (h2c : 2 ≤ b.numCols)
    (hedge : isEdge b pos) (hnc : ¬ isCorner b pos) :
    (specSurrounding pos b).length = 5 := by
  obtain ⟨hr, hc⟩ := hp
  unfold isEdge at hedge
  unfold isCorner at hnc
  unfold specSurrounding DIRECTIONS
  simp only [length_filterMap_cons', List.filterMap_nil, List.length_nil,
    specNeighborOffset_isSome]
  split_ifs <;> omega

/-- Claim C7, amended: for every board (with `usize`-sized dimensions, as any
Rust `Vec` has) and every in-bounds position, `surrounding` returns exactly
the positions among the 8 compass offsets of the given position that lie
within the board's bounds, in the fixed order NW, N, NE, E, SE, S, SW, W
(the list `specSurrounding`), with no duplicates, and never including the
position itself; and ON A BOARD WITH AT LEAST 2 ROWS AND 2 COLUMNS, a corner
cell yields 3 neighbors and a non-corner edge cell yields 5.  (The original
claim asserted the 3- and 5-neighbor counts for every board; they fail on
degenerate one-row or one-column boards, see the counterexample.) -/
theorem surrounding_characterization (b : Board) (pos : Position)
    (hrows : b.numRows < 2 ^ 63) (hcols : b.numCols < 2 ^ 63)
    (hp : b.position_on_board pos) :
    pos.surrounding b = specSurrounding pos b ∧
    (pos.surrounding b).Nodup ∧
    pos ∉ pos.surrounding b ∧
    (2 ≤ b.numRows → 2 ≤ b.numCols →
      (isCorner b pos → (pos.surrounding b).length = 3) ∧
      (isEdge b pos → ¬ isCorner b pos → (pos.surrounding b).length = 5)) := by
  have heq := surrounding_eq_spec b pos hrows hcols hp
  refine ⟨heq, ?_, ?_, ?_⟩
  · rw [heq]; exact surrounding_nodup_spec b pos
  · rw [heq]; exact self_not_mem_spec b pos
  · intro h2r h2c
    constructor
    · intro hcorner
      rw [heq]; exact specSurrounding_length_corner b pos hp h2r h2c hcorner
    · intro hedge hnc
      rw [heq]; exact specSurrounding_length_edge b pos hp h2r h2c hedge hnc

/-- Witness for C7 (amended): on the concrete 3-by-3 board the corner (0,0)
has exactly 3 neighbors. -/
theorem surrounding_characterization_witness :
    ((Position.new 0 0).surrounding board3x3).length = 3 :=
  ((surrounding_characterization board3x3 (Position.new 0 0)
      (by decide) (by decide) (by decide)).2.2.2
    (by decide) (by decide)).1 (by decide)

/-- Counterexample to claim C7 as frozen: on the 1-by-1 board the cell (0,0)
is in bounds and is a corner cell, yet `surrounding` returns the empty list —
0 neighbors, not the 3 the claim asserts for every corner cell of every
board. -/
theorem surrounding_corner_counterexample :
    isCorner (Board.mk [[CellState.Unknown]] ∅) (Position.new 0 0) ∧
    (Board.mk [[CellState.Unknown]] ∅).position_on_board (Position.new 0 0) ∧
    (Position.new 0 0).surrounding (Board.mk [[CellState.Unknown]] ∅) = [] := by
  decide

/-! ## Machinery for the reveal claims (C3, C6, C8) -/

/-- Two boards share mine set, row count and every row length (`reveal_cell`
never changes any of these). -/
def SameShape (b b' : Board) : Prop :=
  b'.bomb_positions = b.bomb_positions ∧
  b'.states.length = b.states.length ∧
  ∀ i : Nat, (b'.states[i]?).map List.length = (b.states[i]?).map List.length

theorem SameShape.refl (b : Board) : SameShape b b := ⟨rfl, rfl, fun _ => rfl⟩

theorem SameShape.trans {a b c : Board} (h1 : SameShape a b) (h2 : SameShape b c) :
    SameShape a c :=
  ⟨h2.1.trans h1.1, h2.2.1.trans h1.2.1, fun i => (h2.2.2 i).trans (h1.2.2 i)⟩

theorem Position.ne_iff (q p : Position) : q ≠ p ↔ ¬(q.row = p.row ∧ q.col = p.col) := by
  constructor
  · intro h hcontra
    apply h
    obtain ⟨qc, qr⟩ := q
    obtain ⟨pc, pr⟩ := p
    obtain ⟨h1, h2⟩ := hcontra
    simp only at h1 h2
    rw [h1, h2]
  · intro h he
    exact h (by rw [he]; exact ⟨rfl, rfl⟩)

theorem list_set_self {α : Type _} (l : List α) (i : Nat) (a : α)
    (h : l[i]? = some a) : l.set i a = l := by
  induction l generalizing i with
  | nil => simp at h
  | cons x xs ih =>
    cases i with
    | zero =>
      simp only [List.getElem?_cons_zero, Option.some.injEq] at h
      rw [← h, List.set_cons_zero]
    | succ j =>
      simp only [List.getElem?_cons_succ] at h
      rw [List.set_cons_succ, ih j h]

theorem countP_set' {α : Type _} (p : α → Bool) (l : List α) (i : Nat) (a w : α)
    (h : l[i]? = some w) :
    (l.set i a).countP p + (if p w = true then 1 else 0) =
      l.countP p + (if p a = true then 1 else 0) := by
  induction l generalizing i with
  | nil => simp at h
  | cons x xs ih =>
    cases i with
    | zero =>
      simp only [List.getElem?_cons_zero, Option.some.injEq] at h
      subst h
      simp only [List.set_cons_zero, List.countP_cons]
      omega
    | succ j =>
      simp only [List.getElem?_cons_succ] at h
      simp only [List.set_cons_succ, List.countP_cons]
      have := ih j h
      omega

theorem sum_map_set {α : Type _} (f : α → Nat) (l : List α) (i : Nat) (x w : α)
    (h : l[i]? = some w) :
    ((l.set i x).map f).sum + f w = (l.map f).sum + f x := by
  induction l generalizing i with
  | nil => simp at h
  | cons y ys ih =>
    cases i with
    | zero =>
      simp only [List.getElem?_cons_zero, Option.some.injEq] at h
      subst h
      simp only [List.set_cons_zero, List.map_cons, List.sum_cons]
      omega
    | succ j =>
      simp only [List.getElem?_cons_succ] at h
      simp only [List.set_cons_succ, List.map_cons, List.sum_cons]
      have := ih j h
      omega

theorem setState_some_elim {b : Board} {p : Position} {s : CellState} {b' : Board}
    (h : setState b p s = some b') :
    ∃ rowVec, b.states[p.row]? = some rowVec ∧ p.col < rowVec.length ∧
      b' = { b with states := b.states.set p.row (rowVec.set p.col s) } := by
  unfold setState at h
  split at h
  · exact absurd h (by simp)
  · rename_i rowVec hr
    split at h
    · rename_i hc
      refine ⟨rowVec, hr, hc, ?_⟩
      injection h with h
      exact h.symm
    · exact absurd h (by simp)

theorem setState_eq_some' {b : Board} {p : Position} {s : CellState} {rowVec : List CellState}
    (hr : b.states[p.row]? = some rowVec) (hc : p.col < rowVec.length) :
    setState b p s = some { b with states := b.states.set p.row (rowVec.set p.col s) } := by
  unfold setState
  simp only [hr]
  rw [if_pos hc]

theorem getState_eq {b : Board} {p : Position} {rowVec : List CellState}
    (hr : b.states[p.row]? = some rowVec) : getState b p = rowVec[p.col]? := by
  unfold getState
  simp only [hr]

theorem getState_none_elim {b : Board} {p : Position} (h : getState b p = none) :
    b.states[p.row]? = none ∨
      ∃ rowVec, b.states[p.row]? = some rowVec ∧ rowVec.length ≤ p.col := by
  unfold getState at h
  split at h
  · rename_i hr; exact Or.inl hr
  · rename_i rowVec hr
    refine Or.inr ⟨rowVec, hr, ?_⟩
    by_contra hc
    rw [List.getElem?_eq_getElem (Nat.lt_of_not_le hc)] at h
    exact absurd h (by simp)

theorem getState_isSome_of_rect {b : Board} {p : Position}
    (hrect : rect b) (hp : b.position_on_board p) : ∃ v, getState b p = some v := by
  obtain ⟨hr, hc⟩ := hp
  obtain ⟨rowVec, hrow⟩ : ∃ r, b.states[p.row]? = some r :=
    ⟨_, List.getElem?_eq_getElem hr⟩
  have hlen : rowVec.length = b.numCols :=
    hrect _ (List.getElem?_mem hrow)
  rw [getState_eq hrow, List.getElem?_eq_getElem (by omega)]
  exact ⟨_, rfl⟩

theorem setState_isSome_of_rect {b : Board} {p : Position} (s : CellState)
    (hrect : rect b) (hp : b.position_on_board p) : ∃ b', setState b p s = some b' := by
  obtain ⟨hr, hc⟩ := hp
  obtain ⟨rowVec, hrow⟩ : ∃ r, b.states[p.row]? = some r :=
    ⟨_, List.getElem?_eq_getElem hr⟩
  have hlen : rowVec.length = b.numCols :=
    hrect _ (List.getElem?_mem hrow)
  exact ⟨_, setState_eq_some' hrow (by omega)⟩

/-- The full description of a successful `setState`: the written cell reads
back as `s`, every other cell is untouched, the shape is unchanged, and the
overwritten cell existed. -/
theorem setState_getState {b : Board} {p : Position} {s : CellState} {b' : Board}
    (h : setState b p s = some b') :
    getState b' p = some s ∧
    (∀ q : Position, ¬(q.row = p.row ∧ q.col = p.col) → getState b' q = getState b q) ∧
    SameShape b b' ∧
    (∃ w, getState b p = some w) := by
  obtain ⟨rowVec, hr, hc, hb'⟩ := setState_some_elim h
  have hrowlt : p.row < b.states.length := by
    rcases List.getElem?_eq_some_iff.mp hr with ⟨hlt, _⟩
    exact hlt
  subst hb'
  have hg1 : getState { b with states := b.states.set p.row (rowVec.set p.col s) } p
      = some s := by
    have h1 : (b.states.set p.row (rowVec.set p.col s))[p.row]? =
        some (rowVec.set p.col s) := by
      rw [List.getElem?_set_self (by simpa using hrowlt)]
    rw [getState_eq h1, List.getElem?_set_self (by simpa using hc)]
  have hg2 : ∀ q : Position, ¬(q.row = p.row ∧ q.col = p.col) →
      getState { b with states := b.states.set p.row (rowVec.set p.col s) } q
        = getState b q := by
    intro q hq
    by_cases hqr : q.row = p.row
    · have hqc : q.col ≠ p.col := fun hcc => hq ⟨hqr, hcc⟩
      have h1 : (b.states.set p.row (rowVec.set p.col s))[q.row]? =
          some (rowVec.set p.col s) := by
        rw [hqr, List.getElem?_set_self (by simpa using hrowlt)]
      have h2 : b.states[q.row]? = some rowVec := by rw [hqr]; exact hr
      rw [getState_eq h1, getState_eq h2, List.getElem?_set_ne (fun hne => hqc hne.symm)]
    · unfold getState
      rw [List.getElem?_set_ne (fun hne => hqr hne.symm)]
  have hg3 : ∀ i : Nat,
      ((b.states.set p.row (rowVec.set p.col s))[i]?).map List.length =
        (b.states[i]?).map List.length := by
    intro i
    by_cases hi : i = p.row
    · subst hi
      rw [List.getElem?_set_self (by simpa using hrowlt), hr]
      simp
    · rw [List.getElem?_set_ne (fun hne => hi hne.symm)]
  have hg4 : ∃ w, getState b p = some w := by
    rw [getState_eq hr, List.getElem?_eq_getElem hc]
    exact ⟨_, rfl⟩
  exact ⟨hg1, hg2, ⟨rfl, by simp, hg3⟩, hg4⟩

/-- Writing back the value a cell already holds leaves the board unchanged. -/
theorem setState_self {b : Board} {p : Position} {s : CellState}
    (hget : getState b p = some s) : setState b p s = some b := by
  unfold getState at hget
  cases hr : b.states[p.row]? with
  | none => rw [hr] at hget; simp at hget
  | some rowVec =>
    rw [hr] at hget
    have hc : p.col < rowVec.length := by
      rcases List.getElem?_eq_some_iff.mp hget with ⟨hlt, _⟩
      exact hlt
    rw [setState_eq_some' hr hc, list_set_self rowVec p.col s hget,
      list_set_self b.states p.row rowVec hr]

/-- How one `setState` changes the `Unknown` count. -/
theorem setState_countUnknown {b : Board} {p : Position} {s : CellState} {b' : Board}
    {w : CellState} (h : setState b p s = some b') (hget : getState b p = some w) :
    countUnknown b' + (if w = CellState.Unknown then 1 else 0) =
      countUnknown b + (if s = CellState.Unknown then 1 else 0) := by
  obtain ⟨rowVec, hr, hc, hb'⟩ := setState_some_elim h
  rw [getState_eq hr] at hget
  subst hb'
  unfold countUnknown
  have h1 := countP_set' (fun c => decide (c = CellState.Unknown)) rowVec p.col s w hget
  have h2 := sum_map_set (fun r => r.countP (fun c => decide (c = CellState.Unknown)))
    b.states p.row (rowVec.set p.col s) rowVec hr
  simp only [decide_eq_true_eq] at h1
  dsimp only at h2 ⊢
  omega

theorem SameShape.numRows_eq {b b' : Board} (h : SameShape b b') :
    b'.numRows = b.numRows := h.2.1

theorem headD_length_eq (l : List (List CellState)) :
    (l.headD []).length = ((l[0]?).map List.length).getD 0 := by
  cases l <;> simp

theorem SameShape.numCols_eq {b b' : Board} (h : SameShape b b') :
    b'.numCols = b.numCols := by
  unfold Board.numCols
  rw [headD_length_eq, headD_length_eq, h.2.2 0]

theorem SameShape.pob_iff {b b' : Board} (h : SameShape b b') (p : Position) :
    b'.position_on_board p ↔ b.position_on_board p := by
  unfold Board.position_on_board
  rw [h.numRows_eq, h.numCols_eq]

theorem SameShape.rect_of {b b' : Board} (h : SameShape b b') (hrect : rect b) :
    rect b' := by
  intro r' hr'
  obtain ⟨i, hi⟩ := List.mem_iff_getElem?.mp hr'
  have hmap := h.2.2 i
  rw [hi] at hmap
  cases hb : b.states[i]? with
  | none => rw [hb] at hmap; simp at hmap
  | some r =>
    rw [hb] at hmap
    simp only [Option.map_some', Option.some.injEq] at hmap
    rw [h.numCols_eq, ← hrect r (List.getElem?_mem hb)]
    exact hmap

theorem SameShape.surrounding_eq {b b' : Board} (h : SameShape b b') (pos : Position) :
    pos.surrounding b' = pos.surrounding b := by
  unfold Position.surrounding
  apply List.filterMap_congr
  intro d _
  simp only [Board.position_on_board, h.numRows_eq, h.numCols_eq]

theorem SameShape.mineCount_eq {b b' : Board} (h : SameShape b b') (pos : Position) :
    mineCount b' pos = mineCount b pos := by
  unfold mineCount
  rw [h.surrounding_eq]
  simp only [h.1]

theorem countUnknown_pos {b : Board} {p : Position}
    (h : getState b p = some CellState.Unknown) : 0 < countUnknown b := by
  unfold getState at h
  split at h
  · exact absurd h (by simp)
  · rename_i rowVec hr
    have hmem : CellState.Unknown ∈ rowVec := List.getElem?_mem h
    have hrow : rowVec ∈ b.states := List.getElem?_mem hr
    unfold countUnknown
    have h1 : 0 < rowVec.countP (fun s => decide (s = CellState.Unknown)) :=
      List.countP_pos_iff.mpr ⟨_, hmem, by simp⟩
    have h2 : rowVec.countP (fun s => decide (s = CellState.Unknown)) ∈
        b.states.map (fun r => r.countP (fun s => decide (s = CellState.Unknown))) :=
      List.mem_map_of_mem _ hrow
    have h3 := List.le_sum_of_mem h2
    omega

theorem getState_mem {b : Board} {p : Position} {v : CellState}
    (h : getState b p = some v) : ∃ row ∈ b.states, v ∈ row := by
  unfold getState at h
  split at h
  · exact absurd h (by simp)
  · rename_i rowVec hr
    exact ⟨rowVec, List.getElem?_mem hr, List.getElem?_mem h⟩

theorem surrounding_mem_pob {b : Board} {pos n : Position}
    (h : n ∈ pos.surrounding b) : b.position_on_board n := by
  unfold Position.surrounding at h
  rw [List.mem_filterMap] at h
  obtain ⟨d, _, hd⟩ := h
  dsimp only at hd
  split_ifs at hd with h1 h2
  injection hd with hd
  rw [← hd]
  exact h2

theorem mineCount_le_8 (b : Board) (p : Position) : mineCount b p ≤ 8 := by
  unfold mineCount
  have h1 : (p.surrounding b).length ≤ 8 := by
    unfold Position.surrounding
    have := List.length_filterMap_le (fun d : Int × Int =>
      let new_row : Int := d.1 + (p.row : Int)
      let new_col : Int := d.2 + (p.col : Int)
      if new_row < 0 ∧ new_col < 0 then
        none
      else
        let new_pos := Position.new (usizeCast new_row) (usizeCast new_col)
        if b.position_on_board new_pos then some new_pos else none) DIRECTIONS
    simpa using this
  have h2 := List.length_filter_le (fun n => decide (n ∈ b.bomb_positions)) (p.surrounding b)
  omega

/-! Unfolding equations for the fuel-indexed reveal. -/

theorem reveal_cell_fuel_succ (fuel : Nat) (b : Board) (pos : Position) :
    Board.reveal_cell_fuel (fuel + 1) b pos =
      if pos ∈ b.bomb_positions then
        match setState b pos CellState.Bomb with
        | none => none
        | some b' => some (b', CellState.Bomb)
      else
        match setState b pos (if mineCount b pos = 0 then CellState.Empty
            else CellState.Danger (mineCount b pos % 256)) with
        | none => none
        | some b' =>
          if (if mineCount b pos = 0 then CellState.Empty
              else CellState.Danger (mineCount b pos % 256)) = CellState.Empty then
            match cascadeWith (Board.reveal_cell_fuel fuel) (pos.surrounding b) b' with
            | none => none
            | some b'' => some (b'', if mineCount b pos = 0 then CellState.Empty
                else CellState.Danger (mineCount b pos % 256))
          else some (b', if mineCount b pos = 0 then CellState.Empty
              else CellState.Danger (mineCount b pos % 256)) := rfl

theorem reveal_fuel_bomb {f : Nat} {b : Board} {pos : Position}
    (hb : pos ∈ b.bomb_positions) :
    Board.reveal_cell_fuel (f + 1) b pos =
      match setState b pos CellState.Bomb with
      | none => none
      | some b' => some (b', CellState.Bomb) := by
  rw [reveal_cell_fuel_succ]
  rw [if_pos hb]

theorem reveal_fuel_danger {f : Nat} {b : Board} {pos : Position}
    (hb : pos ∉ b.bomb_positions) (hm : mineCount b pos ≠ 0) :
    Board.reveal_cell_fuel (f + 1) b pos =
      match setState b pos (CellState.Danger (mineCount b pos % 256)) with
      | none => none
      | some b' => some (b', CellState.Danger (mineCount b pos % 256)) := by
  rw [reveal_cell_fuel_succ]
  rw [if_neg hb, if_neg hm]
  rfl

theorem reveal_fuel_empty {f : Nat} {b : Board} {pos : Position}
    (hb : pos ∉ b.bomb_positions) (hm : mineCount b pos = 0) :
    Board.reveal_cell_fuel (f + 1) b pos =
      match setState b pos CellState.Empty with
      | none => none
      | some b' =>
        match cascadeWith (Board.reveal_cell_fuel f) (pos.surrounding b) b' with
        | none => none
        | some b'' => some (b'', CellState.Empty) := by
  rw [reveal_cell_fuel_succ]
  rw [if_neg hb, if_pos hm]
  rfl

/-- Complete case analysis for one successful step of the fuel-indexed
reveal: mine, danger, or empty-with-cascade. -/
theorem reveal_fuel_succ_cases {f : Nat} {b : Board} {pos : Position}
    {b' : Board} {s : CellState}
    (h : Board.reveal_cell_fuel (f + 1) b pos = some (b', s)) :
    (pos ∈ b.bomb_positions ∧ s = CellState.Bomb ∧
      setState b pos CellState.Bomb = some b') ∨
    (pos ∉ b.bomb_positions ∧ mineCount b pos ≠ 0 ∧
      s = CellState.Danger (mineCount b pos % 256) ∧ setState b pos s = some b') ∨
    (pos ∉ b.bomb_positions ∧ mineCount b pos = 0 ∧ s = CellState.Empty ∧
      ∃ b1, setState b pos CellState.Empty = some b1 ∧
        cascadeWith (Board.reveal_cell_fuel f) (pos.surrounding b) b1 = some b') := by
  by_cases hb : pos ∈ b.bomb_positions
  · left
    rw [reveal_fuel_bomb hb] at h
    cases hset : setState b pos CellState.Bomb with
    | none => rw [hset] at h; exact absurd h (by simp)
    | some b1 =>
      rw [hset] at h
      dsimp only at h
      injection h with h
      injection h with h1 h2
      subst h1
      subst h2
      exact ⟨hb, rfl, rfl⟩
  · by_cases hm : mineCount b pos = 0
    · right; right
      rw [reveal_fuel_empty hb hm] at h
      cases hset : setState b pos CellState.Empty with
      | none => rw [hset] at h; exact absurd h (by simp)
      | some b1 =>
        rw [hset] at h
        dsimp only at h
        cases hcas : cascadeWith (Board.reveal_cell_fuel f) (pos.surrounding b) b1 with
        | none => rw [hcas] at h; exact absurd h (by simp)
        | some b2 =>
          rw [hcas] at h
          dsimp only at h
          injection h with h
          injection h with h1 h2
          subst h1
          subst h2
          exact ⟨hb, hm, rfl, b1, rfl, hcas⟩
    · right; left
      rw [reveal_fuel_danger hb hm] at h
      cases hset : setState b pos (CellState.Danger (mineCount b pos % 256)) with
      | none => rw [hset] at h; exact absurd h (by simp)
      | some b1 =>
        rw [hset] at h
        dsimp only at h
        injection h with h
        injection h with h1 h2
        subst h1
        subst h2
        exact ⟨hb, hm, rfl, hset⟩

theorem cascadeWith_mono {r1 r2 : Board → Position → Option (Board × CellState)}
    (h : ∀ b p x, r1 b p = some x → r2 b p = some x) :
    ∀ (l : List Position) (b b' : Board),
      cascadeWith r1 l b = some b' → cascadeWith r2 l b = some b' := by
  intro l
  induction l with
  | nil => intro b b' hc; exact hc
  | cons n rest ih =>
    intro b b' hc
    simp only [cascadeWith] at hc ⊢
    cases hg : getState b n with
    | none => rw [hg] at hc; exact absurd hc (by simp)
    | some s =>
      rw [hg] at hc
      dsimp only at hc ⊢
      by_cases hs : s = CellState.Unknown
      · rw [if_pos hs] at hc ⊢
        cases hr : r1 b n with
        | none => rw [hr] at hc; exact absurd hc (by simp)
        | some x =>
          obtain ⟨b1, st⟩ := x
          rw [hr] at hc
          dsimp only at hc
          rw [h b n (b1, st) hr]
          dsimp only
          exact ih _ _ hc
      · rw [if_neg hs] at hc ⊢
        exact ih _ _ hc

theorem cascade_shape {f : Nat}
    (hrev : ∀ b pos x, Board.reveal_cell_fuel f b pos = some x →
      SameShape b x.1 ∧ countUnknown x.1 ≤ countUnknown b) :
    ∀ (l : List Position) (b b' : Board),
      cascadeWith (Board.reveal_cell_fuel f) l b = some b' →
      SameShape b b' ∧ countUnknown b' ≤ countUnknown b := by
  intro l
  induction l with
  | nil =>
    intro b b' hc
    have hc' : some b = some b' := hc
    injection hc' with hc'
    subst hc'
    exact ⟨SameShape.refl b, Nat.le_refl _⟩
  | cons n rest ih =>
    intro b b' hc
    simp only [cascadeWith] at hc
    cases hg : getState b n with
    | none => rw [hg] at hc; exact absurd hc (by simp)
    | some s =>
      rw [hg] at hc
      dsimp only at hc
      by_cases hs : s = CellState.Unknown
      · rw [if_pos hs] at hc
        cases hr : Board.reveal_cell_fuel f b n with
        | none => rw [hr] at hc; exact absurd hc (by simp)
        | some x =>
          obtain ⟨b1, st⟩ := x
          rw [hr] at hc
          dsimp only at hc
          obtain ⟨hsh1, hcu1⟩ := hrev b n (b1, st) hr
          obtain ⟨hsh2, hcu2⟩ := ih b1 b' hc
          exact ⟨hsh1.trans hsh2, Nat.le_trans hcu2 hcu1⟩
      · rw [if_neg hs] at hc
        exact ih b b' hc

theorem reveal_shape : ∀ (f : Nat) (b : Board) (pos : Position) (x : Board × CellState),
    Board.reveal_cell_fuel f b pos = some x →
    SameShape b x.1 ∧ countUnknown x.1 ≤ countUnknown b ∧
      (getState b pos = some CellState.Unknown → countUnknown x.1 < countUnknown b) := by
  intro f
  induction f with
  | zero => intro b pos x h; exact absurd h (by simp [Board.reveal_cell_fuel])
  | succ f ih =>
    intro b pos x h
    obtain ⟨b', s⟩ := x
    rcases reveal_fuel_succ_cases h with ⟨hb, hs, hset⟩ | ⟨hb, hm, hs, hset⟩ |
      ⟨hb, hm, hs, b1, hset, hcas⟩
    · obtain ⟨hg1, hg2, hsh, w, hw⟩ := setState_getState hset
      have hcount := setState_countUnknown hset hw
      rw [if_neg (by simp : ¬(CellState.Bomb = CellState.Unknown))] at hcount
      refine ⟨hsh, by dsimp only; split_ifs at hcount <;> omega, ?_⟩
      intro hU
      rw [hw] at hU
      injection hU with hU
      rw [if_pos hU] at hcount
      dsimp only
      omega
    · subst hs
      obtain ⟨hg1, hg2, hsh, w, hw⟩ := setState_getState hset
      have hcount := setState_countUnknown hset hw
      rw [if_neg (by simp :
        ¬(CellState.Danger (mineCount b pos % 256) = CellState.Unknown))] at hcount
      refine ⟨hsh, by dsimp only; split_ifs at hcount <;> omega, ?_⟩
      intro hU
      rw [hw] at hU
      injection hU with hU
      rw [if_pos hU] at hcount
      dsimp only
      omega
    · obtain ⟨hg1, hg2, hsh1, w, hw⟩ := setState_getState hset
      have hcount := setState_countUnknown hset hw
      rw [if_neg (by simp : ¬(CellState.Empty = CellState.Unknown))] at hcount
      have hrev : ∀ b pos x, Board.reveal_cell_fuel f b pos = some x →
          SameShape b x.1 ∧ countUnknown x.1 ≤ countUnknown b :=
        fun b pos x hh => ⟨(ih b pos x hh).1, (ih b pos x hh).2.1⟩
      obtain ⟨hsh2, hcu2⟩ := cascade_shape hrev (pos.surrounding b) b1 b' hcas
      refine ⟨hsh1.trans hsh2, ?_, ?_⟩
      · dsimp only
        split_ifs at hcount <;> omega
      · intro hU
        rw [hw] at hU
        injection hU with hU
        rw [if_pos hU] at hcount
        dsimp only
        omega

theorem cascade_preserves {f : Nat}
    (hrev : ∀ b pos x, Board.reveal_cell_fuel f b pos = some x →
      ∀ q v, v ≠ CellState.Unknown → q ≠ pos → getState b q = some v →
        getState x.1 q = some v) :
    ∀ (l : List Position) (b b' : Board),
      cascadeWith (Board.reveal_cell_fuel f) l b = some b' →
      ∀ q v, v ≠ CellState.Unknown → getState b q = some v → getState b' q = some v := by
  intro l
  induction l with
  | nil =>
    intro b b' hc q v hv hq
    have hc' : some b = some b' := hc
    injection hc' with hc'
    subst hc'
    exact hq
  | cons n rest ih =>
    intro b b' hc q v hv hq
    simp only [cascadeWith] at hc
    cases hg : getState b n with
    | none => rw [hg] at hc; exact absurd hc (by simp)
    | some s =>
      rw [hg] at hc
      dsimp only at hc
      by_cases hs : s = CellState.Unknown
      · rw [if_pos hs] at hc
        cases hr : Board.reveal_cell_fuel f b n with
        | none => rw [hr] at hc; exact absurd hc (by simp)
        | some x =>
          obtain ⟨b1, st⟩ := x
          rw [hr] at hc
          dsimp only at hc
          have hqn : q ≠ n := by
            intro he
            rw [he, hg] at hq
            injection hq with hq
            exact hv (hq ▸ hs)
          have h1 := hrev b n (b1, st) hr q v hv hqn hq
          exact ih b1 b' hc q v hv h1
      · rw [if_neg hs] at hc
        exact ih b b' hc q v hv hq

theorem reveal_preserves : ∀ (f : Nat) (b : Board) (pos : Position) (x : Board × CellState),
    Board.reveal_cell_fuel f b pos = some x →
    (∀ q v, v ≠ CellState.Unknown → q ≠ pos → getState b q = some v →
      getState x.1 q = some v) ∧
    getState x.1 pos = some x.2 ∧ x.2 ≠ CellState.Unknown := by
  intro f
  induction f with
  | zero => intro b pos x h; exact absurd h (by simp [Board.reveal_cell_fuel])
  | succ f ih =>
    intro b pos x h
    obtain ⟨b', s⟩ := x
    have ihp : ∀ b pos x, Board.reveal_cell_fuel f b pos = some x →
        ∀ q v, v ≠ CellState.Unknown → q ≠ pos → getState b q = some v →
          getState x.1 q = some v :=
      fun b pos x hh => (ih b pos x hh).1
    rcases reveal_fuel_succ_cases h with ⟨hb, hs, hset⟩ | ⟨hb, hm, hs, hset⟩ |
      ⟨hb, hm, hs, b1, hset, hcas⟩
    · obtain ⟨hg1, hg2, hsh, w, hw⟩ := setState_getState hset
      subst hs
      refine ⟨?_, hg1, by simp⟩
      intro q v hv hqp hq
      rw [hg2 q ((Position.ne_iff q pos).mp hqp)]
      exact hq
    · obtain ⟨hg1, hg2, hsh, w, hw⟩ := setState_getState hset
      refine ⟨?_, hg1, by rw [hs]; simp⟩
      intro q v hv hqp hq
      rw [hg2 q ((Position.ne_iff q pos).mp hqp)]
      exact hq
    · obtain ⟨hg1, hg2, hsh, w, hw⟩ := setState_getState hset
      subst hs
      have hpres := cascade_preserves ihp (pos.surrounding b) b1 b' hcas
      refine ⟨?_, ?_, by simp⟩
      · intro q v hv hqp hq
        have h1 : getState b1 q = some v := by
          rw [hg2 q ((Position.ne_iff q pos).mp hqp)]
          exact hq
        exact hpres q v hv h1
      · exact hpres pos CellState.Empty (by simp) hg1

theorem reveal_cell_fuel_mono :
    ∀ (f1 : Nat) (b : Board) (pos : Position) (x : Board × CellState),
    Board.reveal_cell_fuel f1 b pos = some x →
    ∀ f2, f1 ≤ f2 → Board.reveal_cell_fuel f2 b pos = some x := by
  intro f1
  induction f1 with
  | zero => intro b pos x h; exact absurd h (by simp [Board.reveal_cell_fuel])
  | succ f ih =>
    intro b pos x h f2 hle
    obtain ⟨f2', rfl⟩ : ∃ g, f2 = g + 1 := ⟨f2 - 1, by omega⟩
    obtain ⟨b', s⟩ := x
    rcases reveal_fuel_succ_cases h with ⟨hb, hs, hset⟩ | ⟨hb, hm, hs, hset⟩ |
      ⟨hb, hm, hs, b1, hset, hcas⟩
    · subst hs
      rw [reveal_fuel_bomb hb, hset]
    · subst hs
      rw [reveal_fuel_danger hb hm, hset]
    · subst hs
      have hcas' := cascadeWith_mono
        (fun bb pp xx hxx => ih bb pp xx hxx f2' (by omega))
        (pos.surrounding b) b1 b' hcas
      rw [reveal_fuel_empty hb hm, hset]
      dsimp only
      rw [hcas']

theorem cascade_success {f : Nat}
    (hrevS : ∀ b pos, rect b → b.position_on_board pos →
      (countUnknown b < f ∨
        (getState b pos = some CellState.Unknown ∧ countUnknown b ≤ f)) →
      ∃ x, Board.reveal_cell_fuel f b pos = some x)
    (hrevSh : ∀ b pos x, Board.reveal_cell_fuel f b pos = some x →
      SameShape b x.1 ∧ countUnknown x.1 ≤ countUnknown b) :
    ∀ (l : List Position) (b : Board), rect b → (∀ n ∈ l, b.position_on_board n) →
      countUnknown b ≤ f →
      ∃ b', cascadeWith (Board.reveal_cell_fuel f) l b = some b' := by
  intro l
  induction l with
  | nil => intro b _ _ _; exact ⟨b, rfl⟩
  | cons n rest ih =>
    intro b hrect hmem hcount
    obtain ⟨v, hv⟩ := getState_isSome_of_rect hrect (hmem n (List.mem_cons_self n rest))
    by_cases hs : v = CellState.Unknown
    · subst hs
      obtain ⟨x, hx⟩ := hrevS b n hrect (hmem n (List.mem_cons_self n rest))
        (Or.inr ⟨hv, hcount⟩)
      obtain ⟨hsh, hcu⟩ := hrevSh b n x hx
      obtain ⟨b1, st⟩ := x
      obtain ⟨b', hb'⟩ := ih b1 (hsh.rect_of hrect)
        (fun m hm => (hsh.pob_iff m).mpr (hmem m (List.mem_cons_of_mem n hm)))
        (Nat.le_trans hcu hcount)
      refine ⟨b', ?_⟩
      simp only [cascadeWith]
      rw [hv]
      dsimp only
      rw [if_pos rfl, hx]
      dsimp only
      exact hb'
    · obtain ⟨b', hb'⟩ := ih b hrect (fun m hm => hmem m (List.mem_cons_of_mem n hm)) hcount
      refine ⟨b', ?_⟩
      simp only [cascadeWith]
      rw [hv]
      dsimp only
      rw [if_neg hs]
      exact hb'

theorem reveal_success : ∀ (f : Nat) (b : Board) (pos : Position), rect b →
    b.position_on_board pos →
    (countUnknown b < f ∨
      (getState b pos = some CellState.Unknown ∧ countUnknown b ≤ f)) →
    ∃ x, Board.reveal_cell_fuel f b pos = some x := by
  intro f
  induction f with
  | zero =>
    intro b pos hrect hp hcase
    rcases hcase with h | ⟨hU, hle⟩
    · omega
    · have := countUnknown_pos hU
      omega
  | succ f ih =>
    intro b pos hrect hp hcase
    by_cases hb : pos ∈ b.bomb_positions
    · obtain ⟨b', hset⟩ := setState_isSome_of_rect CellState.Bomb hrect hp
      refine ⟨(b', CellState.Bomb), ?_⟩
      rw [reveal_fuel_bomb hb, hset]
    · by_cases hm : mineCount b pos = 0
      · obtain ⟨b1, hset⟩ := setState_isSome_of_rect CellState.Empty hrect hp
        obtain ⟨hg1, hg2, hsh, w, hw⟩ := setState_getState hset
        have hcount := setState_countUnknown hset hw
        rw [if_neg (by simp : ¬(CellState.Empty = CellState.Unknown))] at hcount
        have hb1f : countUnknown b1 ≤ f := by
          rcases hcase with hlt | ⟨hU, hle⟩
          · split_ifs at hcount <;> omega
          · rw [hw] at hU
            injection hU with hU
            rw [if_pos hU] at hcount
            omega
        have hrevSh : ∀ b pos x, Board.reveal_cell_fuel f b pos = some x →
            SameShape b x.1 ∧ countUnknown x.1 ≤ countUnknown b :=
          fun b pos x hh =>
            ⟨(reveal_shape f b pos x hh).1, (reveal_shape f b pos x hh).2.1⟩
        obtain ⟨b2, hcas⟩ := cascade_success ih hrevSh (pos.surrounding b) b1
          (hsh.rect_of hrect)
          (fun m hm' => (hsh.pob_iff m).mpr (surrounding_mem_pob hm'))
          hb1f
        refine ⟨(b2, CellState.Empty), ?_⟩
        rw [reveal_fuel_empty hb hm, hset]
        dsimp only
        rw [hcas]
      · obtain ⟨b', hset⟩ := setState_isSome_of_rect
          (CellState.Danger (mineCount b pos % 256)) hrect hp
        refine ⟨(b', CellState.Danger (mineCount b pos % 256)), ?_⟩
        rw [reveal_fuel_danger hb hm, hset]

theorem cascade_noop (rev : Board → Position → Option (Board × CellState))
    (l : List Position) (b : Board)
    (h : ∀ n ∈ l, ∃ v, getState b n = some v ∧ v ≠ CellState.Unknown) :
    cascadeWith rev l b = some b := by
  induction l with
  | nil => rfl
  | cons n rest ih =>
    obtain ⟨v, hv, hvne⟩ := h n (List.mem_cons_self n rest)
    simp only [cascadeWith]
    rw [hv]
    dsimp only
    rw [if_neg hvne]
    exact ih (fun m hm => h m (List.mem_cons_of_mem n hm))

theorem countUnknown_le (b : Board) (hrect : rect b) :
    countUnknown b ≤ b.numRows * b.numCols := by
  unfold countUnknown
  have hgen : ∀ (l : List (List CellState)) (c : Nat), (∀ r ∈ l, r.length = c) →
      (l.map (fun r => r.countP (fun s => decide (s = CellState.Unknown)))).sum ≤
        l.length * c := by
    intro l c hc
    induction l with
    | nil => simp
    | cons r rs ih =>
      simp only [List.map_cons, List.sum_cons, List.length_cons]
      have h1 : r.countP (fun s => decide (s = CellState.Unknown)) ≤ c := by
        calc r.countP (fun s => decide (s = CellState.Unknown)) ≤ r.length :=
              List.countP_le_length (fun s => decide (s = CellState.Unknown))
          _ = c := hc r (List.mem_cons_self r rs)
      have h2 := ih (fun r hr => hc r (List.mem_cons_of_mem _ hr))
      have h3 : (rs.length + 1) * c = rs.length * c + c := by ring
      omega
  exact hgen b.states b.numCols hrect

/-! ## Claim C8 -/

/-- Claim C8: for every (rectangular) board and every in-bounds position,
`reveal_cell` terminates: the number of `Unknown` cells is at most
`numRows * numCols`, and fuel `countUnknown b + 1` — one top-level call plus
at most one recursive reveal per `Unknown` cell, hence recursion depth at
most `numRows * numCols` — already suffices: `reveal_cell` returns a result
and every larger fuel returns the same result (each cell is revealed at most
once per top-level call, guarded by its transition out of `Unknown`). -/
theorem reveal_cell_terminates (b : Board) (p : Position)
    (hrect : rect b) (hp : b.position_on_board p) :
    countUnknown b ≤ b.numRows * b.numCols ∧
    ∃ x, b.reveal_cell p = some x ∧
      ∀ fuel, countUnknown b + 1 ≤ fuel → Board.reveal_cell_fuel fuel b p = some x := by
  refine ⟨countUnknown_le b hrect, ?_⟩
  obtain ⟨x, hx⟩ := reveal_success (countUnknown b + 1) b p hrect hp (Or.inl (by omega))
  exact ⟨x, hx, fun fuel hf => reveal_cell_fuel_mono _ _ _ _ hx _ hf⟩

/-- Witness for C8: on the concrete 5-by-5 board the `Unknown` count is
within the grid size (the bound instantiated at a real input). -/
theorem reveal_cell_terminates_witness :
    countUnknown board5x5 ≤ board5x5.numRows * board5x5.numCols :=
  (reveal_cell_terminates board5x5 (Position.new 0 0) (by decide) (by decide)).1

/-! ## Claim C3 -/

/-- Claim C3: for every (rectangular) board and every in-bounds position `p`,
`reveal_cell(p)` returns and stores at `p`: `Bomb` if `p` is in the mine set
(returning with no cascade — no other cell's state changes), `Empty` if `p`
is not a mine and no surrounding cell is a mine, and `Danger(n)` if `p` is
not a mine and `n > 0` surrounding cells are mines (again changing no other
cell); and in every case the mine set and the grid dimensions are
unchanged. -/
theorem reveal_cell_cases (b : Board) (p : Position)
    (hrect : rect b) (hp : b.position_on_board p) :
    ∃ b' s, b.reveal_cell p = some (b', s) ∧
      b'.bomb_positions = b.bomb_positions ∧
      b'.numRows = b.numRows ∧ b'.numCols = b.numCols ∧
      getState b' p = some s ∧
      (p ∈ b.bomb_positions → s = CellState.Bomb ∧
        ∀ q, q ≠ p → getState b' q = getState b q) ∧
      (p ∉ b.bomb_positions → mineCount b p = 0 → s = CellState.Empty) ∧
      (p ∉ b.bomb_positions → mineCount b p ≠ 0 →
        s = CellState.Danger (mineCount b p) ∧
        ∀ q, q ≠ p → getState b' q = getState b q) := by
  obtain ⟨x, hx⟩ := reveal_success (countUnknown b + 1) b p hrect hp (Or.inl (by omega))
  obtain ⟨b', s⟩ := x
  refine ⟨b', s, hx, ?_⟩
  obtain ⟨hsh, _, _⟩ := reveal_shape _ _ _ _ hx
  obtain ⟨hpres, hgp, hsU⟩ := reveal_preserves _ _ _ _ hx
  have hmc8 := mineCount_le_8 b p
  have hmod : mineCount b p % 256 = mineCount b p := Nat.mod_eq_of_lt (by omega)
  rcases reveal_fuel_succ_cases hx with ⟨hb, hs, hset⟩ | ⟨hb, hm, hs, hset⟩ |
    ⟨hb, hm, hs, b1, hset, hcas⟩
  · obtain ⟨hg1, hg2, hsh', w, hw⟩ := setState_getState hset
    refine ⟨hsh.1, hsh.numRows_eq, hsh.numCols_eq, hgp, ?_, ?_, ?_⟩
    · intro _
      exact ⟨hs, fun q hq => hg2 q ((Position.ne_iff q p).mp hq)⟩
    · intro hnb _
      exact absurd hb hnb
    · intro hnb _
      exact absurd hb hnb
  · obtain ⟨hg1, hg2, hsh', w, hw⟩ := setState_getState hset
    refine ⟨hsh.1, hsh.numRows_eq, hsh.numCols_eq, hgp, ?_, ?_, ?_⟩
    · intro hbb
      exact absurd hbb hb
    · intro _ h0
      exact absurd h0 hm
    · intro _ _
      exact ⟨by rw [hs, hmod], fun q hq => hg2 q ((Position.ne_iff q p).mp hq)⟩
  · refine ⟨hsh.1, hsh.numRows_eq, hsh.numCols_eq, hgp, ?_, ?_, ?_⟩
    · intro hbb
      exact absurd hbb hb
    · intro _ _
      exact hs
    · intro _ hm'
      exact absurd hm hm'

/-- Witness for C3: on the concrete 5-by-5 board, revealing the mine cell
(2,2) returns `Bomb`. -/
theorem reveal_cell_cases_witness :
    ∃ b' s, board5x5.reveal_cell (Position.new 2 2) = some (b', s) ∧
      s = CellState.Bomb := by
  obtain ⟨b', s, hx, _, _, _, _, hbomb, _, _⟩ :=
    reveal_cell_cases board5x5 (Position.new 2 2) (by decide) (by decide)
  exact ⟨b', s, hx, (hbomb (by decide)).1⟩

/-! ## Claim C6 -/

/-- The state-consistency invariant maintained by `reveal_cell` on boards
reached from an all-`Unknown` start: every revealed cell's stored state
agrees with the (never-changing) mine layout, and every `Empty` cell's
neighbors are all revealed, except possibly those in the pending set `P`
(the cells a running cascade still has to visit; `P` is empty between
calls). -/
def KInv (b : Board) (P : Position → Prop) : Prop :=
  (∀ p, getState b p = some CellState.Empty →
    p ∉ b.bomb_positions ∧ mineCount b p = 0 ∧
    ∀ n ∈ p.surrounding b, getState b n ≠ some CellState.Unknown ∨ P n) ∧
  (∀ p k, getState b p = some (CellState.Danger k) →
    p ∉ b.bomb_positions ∧ mineCount b p ≠ 0 ∧ mineCount b p % 256 = k) ∧
  (∀ p, getState b p = some CellState.Bomb → p ∈ b.bomb_positions)

theorem KInv_mono {b : Board} {P Q : Position → Prop} (hK : KInv b P)
    (h : ∀ n, P n → Q n ∨ getState b n ≠ some CellState.Unknown) : KInv b Q := by
  obtain ⟨hE, hD, hB⟩ := hK
  refine ⟨?_, hD, hB⟩
  intro p hp
  obtain ⟨h1, h2, h3⟩ := hE p hp
  refine ⟨h1, h2, ?_⟩
  intro n hn
  rcases h3 n hn with hne | hP
  · exact Or.inl hne
  · rcases h n hP with hQ | hne
    · exact Or.inr hQ
    · exact Or.inl hne

/-- Writing one cell whose new value is consistent with the mine layout
preserves the invariant. -/
theorem KInv_after_set {b b' : Board} {pos : Position} {v : CellState}
    {P : Position → Prop}
    (hset : setState b pos v = some b') (hK : KInv b P)
    (hv1 : v = CellState.Empty → pos ∉ b.bomb_positions ∧ mineCount b pos = 0 ∧
      ∀ n ∈ pos.surrounding b, P n)
    (hv2 : ∀ k, v = CellState.Danger k → pos ∉ b.bomb_positions ∧
      mineCount b pos ≠ 0 ∧ mineCount b pos % 256 = k)
    (hv3 : v = CellState.Bomb → pos ∈ b.bomb_positions)
    (hvU : v ≠ CellState.Unknown) :
    KInv b' P := by
  obtain ⟨hg1, hg2, hsh, w, hw⟩ := setState_getState hset
  obtain ⟨hE, hD, hB⟩ := hK
  have hgother : ∀ q : Position, q ≠ pos → getState b' q = getState b q :=
    fun q hq => hg2 q ((Position.ne_iff q pos).mp hq)
  have hnbr : ∀ n : Position, getState b n ≠ some CellState.Unknown →
      getState b' n ≠ some CellState.Unknown := by
    intro n hn
    by_cases hnp : n = pos
    · subst hnp
      rw [hg1]
      intro hcc
      injection hcc with hcc
      exact hvU hcc
    · rw [hgother n hnp]
      exact hn
  refine ⟨?_, ?_, ?_⟩
  · intro p hp
    by_cases hpp : p = pos
    · subst hpp
      rw [hg1] at hp
      injection hp with hp
      obtain ⟨h1, h2, h3⟩ := hv1 hp
      refine ⟨by rw [hsh.1]; exact h1, by rw [hsh.mineCount_eq]; exact h2, ?_⟩
      intro n hn
      rw [hsh.surrounding_eq] at hn
      exact Or.inr (h3 n hn)
    · rw [hgother p hpp] at hp
      obtain ⟨h1, h2, h3⟩ := hE p hp
      refine ⟨by rw [hsh.1]; exact h1, by rw [hsh.mineCount_eq]; exact h2, ?_⟩
      intro n hn
      rw [hsh.surrounding_eq] at hn
      rcases h3 n hn with hne | hP
      · exact Or.inl (hnbr n hne)
      · exact Or.inr hP
  · intro p k hp
    by_cases hpp : p = pos
    · subst hpp
      rw [hg1] at hp
      injection hp with hp
      obtain ⟨h1, h2, h3⟩ := hv2 k hp
      exact ⟨by rw [hsh.1]; exact h1, by rw [hsh.mineCount_eq]; exact h2,
        by rw [hsh.mineCount_eq]; exact h3⟩
    · rw [hgother p hpp] at hp
      obtain ⟨h1, h2, h3⟩ := hD p k hp
      exact ⟨by rw [hsh.1]; exact h1, by rw [hsh.mineCount_eq]; exact h2,
        by rw [hsh.mineCount_eq]; exact h3⟩
  · intro p hp
    by_cases hpp : p = pos
    · subst hpp
      rw [hg1] at hp
      injection hp with hp
      rw [hsh.1]
      exact hv3 hp
    · rw [hgother p hpp] at hp
      rw [hsh.1]
      exact hB p hp

theorem cascadeK {f : Nat}
    (hrev : ∀ (b : Board) (pos : Position) (P : Position → Prop) (x : Board × CellState),
      rect b → b.position_on_board pos → KInv b P →
      Board.reveal_cell_fuel f b pos = some x → KInv x.1 P) :
    ∀ (l : List Position) (b : Board) (P : Position → Prop) (b' : Board),
      rect b → (∀ n ∈ l, b.position_on_board n) →
      KInv b (fun n => P n ∨ n ∈ l) →
      cascadeWith (Board.reveal_cell_fuel f) l b = some b' →
      KInv b' P := by
  intro l
  induction l with
  | nil =>
    intro b P b' _ _ hK hc
    have hc' : some b = some b' := hc
    injection hc' with hc'
    subst hc'
    exact KInv_mono hK (fun n hn => by
      rcases hn with h | h
      · exact Or.inl h
      · exact absurd h (by simp))
  | cons n rest ih =>
    intro b P b' hrect hmem hK hc
    simp only [cascadeWith] at hc
    cases hg : getState b n with
    | none => rw [hg] at hc; exact absurd hc (by simp)
    | some s =>
      rw [hg] at hc
      dsimp only at hc
      by_cases hs : s = CellState.Unknown
      · rw [if_pos hs] at hc
        cases hr : Board.reveal_cell_fuel f b n with
        | none => rw [hr] at hc; exact absurd hc (by simp)
        | some x =>
          obtain ⟨b1, st⟩ := x
          rw [hr] at hc
          dsimp only at hc
          have hK1 : KInv b1 (fun m => P m ∨ m ∈ n :: rest) :=
            hrev b n _ (b1, st) hrect (hmem n (List.mem_cons_self n rest)) hK hr
          obtain ⟨hpres, hgN, hstU⟩ := reveal_preserves f b n (b1, st) hr
          have hgN' : getState b1 n = some st := hgN
          have hK1' : KInv b1 (fun m => P m ∨ m ∈ rest) := by
            apply KInv_mono hK1
            intro m hm
            rcases hm with hP | hmem'
            · exact Or.inl (Or.inl hP)
            · rcases List.mem_cons.mp hmem' with rfl | hmm
              · right
                intro hcc
                rw [hgN'] at hcc
                injection hcc with hcc
                exact hstU hcc
              · exact Or.inl (Or.inr hmm)
          obtain ⟨hsh, _, _⟩ := reveal_shape f b n (b1, st) hr
          exact ih b1 P b' (hsh.rect_of hrect)
            (fun m hm => (hsh.pob_iff m).mpr (hmem m (List.mem_cons_of_mem n hm)))
            hK1' hc
      · rw [if_neg hs] at hc
        have hK' : KInv b (fun m => P m ∨ m ∈ rest) := by
          apply KInv_mono hK
          intro m hm
          rcases hm with hP | hmem'
          · exact Or.inl (Or.inl hP)
          · rcases List.mem_cons.mp hmem' with rfl | hmm
            · right
              intro hcc
              rw [hg] at hcc
              injection hcc with hcc
              exact hs hcc
            · exact Or.inl (Or.inr hmm)
        exact ih b P b' hrect (fun m hm => hmem m (List.mem_cons_of_mem n hm)) hK' hc

theorem revealK : ∀ (f : Nat) (b : Board) (pos : Position) (P : Position → Prop)
    (x : Board × CellState), rect b → b.position_on_board pos → KInv b P →
    Board.reveal_cell_fuel f b pos = some x → KInv x.1 P := by
  intro f
  induction f with
  | zero => intro b pos P x _ _ _ h; exact absurd h (by simp [Board.reveal_cell_fuel])
  | succ f ih =>
    intro b pos P x hrect hp hK h
    obtain ⟨b', s⟩ := x
    rcases reveal_fuel_succ_cases h with ⟨hb, hs, hset⟩ | ⟨hb, hm, hs, hset⟩ |
      ⟨hb, hm, hs, b1, hset, hcas⟩
    · exact KInv_after_set hset hK
        (fun hcc => absurd hcc (by simp))
        (fun k hcc => absurd hcc (by simp))
        (fun _ => hb) (by simp)
    · subst hs
      exact KInv_after_set hset hK
        (fun hcc => absurd hcc (by simp))
        (fun k hcc => by
          injection hcc with hcc
          exact ⟨hb, hm, hcc⟩)
        (fun hcc => absurd hcc (by simp))
        (by simp)
    · obtain ⟨hg1, hg2, hsh, w, hw⟩ := setState_getState hset
      have hK1 : KInv b1 (fun m => P m ∨ m ∈ pos.surrounding b) :=
        KInv_after_set hset
          (KInv_mono hK (fun m hm => Or.inl (Or.inl hm)))
          (fun _ => ⟨hb, hm, fun n hn => Or.inr hn⟩)
          (fun k hcc => absurd hcc (by simp))
          (fun hcc => absurd hcc (by simp))
          (by simp)
      exact cascadeK (fun bb pp PP xx h1 h2 h3 h4 => ih bb pp PP xx h1 h2 h3 h4)
        (pos.surrounding b) b1 P b'
        (hsh.rect_of hrect)
        (fun m hm => (hsh.pob_iff m).mpr (surrounding_mem_pob hm))
        hK1 hcas

/-- A board reachable from a start board by a sequence of `reveal_cell`
calls on in-bounds positions. -/
inductive Reachable : Board → Board → Prop
  | refl (b : Board) : Reachable b b
  | step {b0 b1 b2 : Board} {p : Position} {s : CellState} :
      Reachable b0 b1 → b1.position_on_board p →
      b1.reveal_cell p = some (b2, s) → Reachable b0 b2

theorem allUnknown_KInv {b : Board} (hall : AllUnknown b) (P : Position → Prop) :
    KInv b P := by
  refine ⟨?_, ?_, ?_⟩
  · intro p hp
    obtain ⟨row, hrow, hmem⟩ := getState_mem hp
    exact absurd (hall row hrow _ hmem) (by simp)
  · intro p k hp
    obtain ⟨row, hrow, hmem⟩ := getState_mem hp
    exact absurd (hall row hrow _ hmem) (by simp)
  · intro p hp
    obtain ⟨row, hrow, hmem⟩ := getState_mem hp
    exact absurd (hall row hrow _ hmem) (by simp)

theorem reachable_inv {b0 b : Board} (hreach : Reachable b0 b)
    (hrect : rect b0) (hall : AllUnknown b0) :
    rect b ∧ KInv b (fun _ => False) := by
  induction hreach with
  | refl => exact ⟨hrect, allUnknown_KInv hall _⟩
  | step hre hpob hrev ih =>
    rename_i b1 b2 p s
    obtain ⟨hr1, hK1⟩ := ih
    have hK2 := revealK (countUnknown b1 + 1) b1 p _ (b2, s) hr1 hpob hK1 hrev
    obtain ⟨hsh, _, _⟩ := reveal_shape (countUnknown b1 + 1) b1 p (b2, s) hrev
    exact ⟨hsh.rect_of hr1, hK2⟩

/-- Claim C6: for every board reachable from an all-`Unknown` (rectangular)
board by a sequence of `reveal_cell` calls on in-bounds positions, calling
`reveal_cell` again on a cell that is already revealed and is not a mine
returns the same state that cell already has and leaves every cell's state
unchanged (the returned board is the very same board); and calling
`reveal_cell` again on a cell already revealed as a mine returns `Bomb`. -/
theorem reveal_idempotent (b0 b : Board) (hrect : rect b0) (hall : AllUnknown b0)
    (hreach : Reachable b0 b) :
    (∀ p s, p ∉ b.bomb_positions → getState b p = some s → s ≠ CellState.Unknown →
      b.reveal_cell p = some (b, s)) ∧
    (∀ p, getState b p = some CellState.Bomb →
      b.reveal_cell p = some (b, CellState.Bomb)) := by
  obtain ⟨hr, hK⟩ := reachable_inv hreach hrect hall
  obtain ⟨hE, hD, hB⟩ := hK
  have hbomb : ∀ p, getState b p = some CellState.Bomb →
      b.reveal_cell p = some (b, CellState.Bomb) := by
    intro p hp
    have hpb : p ∈ b.bomb_positions := hB p hp
    unfold Board.reveal_cell
    rw [reveal_fuel_bomb hpb, setState_self hp]
  refine ⟨?_, hbomb⟩
  intro p s hpb hp hsU
  cases s with
  | Unknown => exact absurd rfl hsU
  | Bomb => exact absurd (hB p hp) hpb
  | Empty =>
    obtain ⟨h1, h2, h3⟩ := hE p hp
    have hnoop : ∀ n ∈ p.surrounding b,
        ∃ v, getState b n = some v ∧ v ≠ CellState.Unknown := by
      intro n hn
      have hpobn : b.position_on_board n := surrounding_mem_pob hn
      obtain ⟨v, hv⟩ := getState_isSome_of_rect hr hpobn
      refine ⟨v, hv, ?_⟩
      intro hvU
      subst hvU
      rcases h3 n hn with hne | hFalse
      · exact hne hv
      · exact hFalse
    unfold Board.reveal_cell
    rw [reveal_fuel_empty hpb h2, setState_self hp]
    dsimp only
    rw [cascade_noop _ (p.surrounding b) b hnoop]
  | Danger k =>
    obtain ⟨h1, h2, h3⟩ := hD p k hp
    unfold Board.reveal_cell
    have hset : setState b p (CellState.Danger (mineCount b p % 256)) = some b := by
      rw [h3]
      exact setState_self hp
    rw [reveal_fuel_danger hpb h2, hset]
    dsimp only
    rw [h3]

/-- Witness for C6: the 1-by-1 board with its single cell already revealed
`Empty` (reached by revealing (0,0) from the all-`Unknown` start): revealing
(0,0) again returns `Empty` and the identical board. -/
theorem reveal_idempotent_witness :
    (Board.mk [[CellState.Empty]] ∅).reveal_cell (Position.new 0 0) =
      some (Board.mk [[CellState.Empty]] ∅, CellState.Empty) :=
  (reveal_idempotent (Board.mk [[CellState.Unknown]] ∅)
      (Board.mk [[CellState.Empty]] ∅) (by decide) (by decide)
      (@Reachable.step (Board.mk [[CellState.Unknown]] ∅)
        (Board.mk [[CellState.Unknown]] ∅) (Board.mk [[CellState.Empty]] ∅)
        (Position.new 0 0) CellState.Empty
        (Reachable.refl _) (by decide) (by decide))).1
    (Position.new 0 0) CellState.Empty (by decide) (by decide) (by decide)

end Minesweeper
